import Mathlib

/-!
Verification of the `no-delete-var` lint rule (src/src/rules/no_delete_var.rs)
against its natural-language specification.

The rule plugs into the generic swc visitor framework: it overrides
`visit_unary_expr`, installs `noop_visit_type!()` so type-level sub-trees are
skipped, and otherwise inherits the default pre-order traversal. We embed a
representative fragment of the `swc_ecmascript::ast` node types sufficient for
the rule (the rule itself inspects only a unary expression operator and the
top-level shape of its operand), and embed the rule visitor faithfully:
the overridden `visit_unary_expr` does NOT recurse into its operand, since the
Rust override never calls the default child traversal.
-/

namespace DenoLint

/-- A source span: byte offsets (lo inclusive, hi exclusive) into the source. -/
structure Span where
  lo : Nat
  hi : Nat
deriving DecidableEq, Repr

/-- The swc unary operator tag (`swc_ecmascript::ast::UnaryOp`). -/
inductive UnaryOp where
  | Minus
  | Plus
  | Bang
  | Tilde
  | TypeOf
  | Void
  | Delete
deriving DecidableEq, Repr

/-- Expression nodes: a representative fragment of `swc_ecmascript::ast::Expr`.
`ident` is `Expr::Ident` (a bare name); `member` is a non-computed member
access `o.p`; `computedMember` is `o[p]`; `paren` is `Expr::Paren`; `bin` is a
binary expression; `lit` a literal. -/
inductive Expr where
  | ident : String → Span → Expr
  | lit : String → Span → Expr
  | unary : UnaryOp → Span → Expr → Expr
  | member : Expr → String → Span → Expr
  | computedMember : Expr → Expr → Span → Expr
  | paren : Expr → Span → Expr
  | bin : Expr → Expr → Span → Expr
deriving DecidableEq, Repr

/-- Whether an expression is a bare identifier (`Expr::Ident`); this top-level
shape test is the only thing the rule inspects about a delete operand. -/
def Expr.isIdent : Expr → Bool
  | Expr.ident _ _ => true
  | _ => false

/-- Type-level syntax (a representative fragment of the `TsType` family).
`exprHolder` models a type-level node that structurally contains an
expression sub-tree, so that "a delete expression occurring inside a
type-annotation sub-tree" is representable. -/
inductive TsType where
  | typeRef : String → Span → TsType
  | exprHolder : Expr → Span → TsType
deriving DecidableEq, Repr

/-- Variable declaration kind (`var` / `let` / `const`). -/
inductive VarDeclKind where
  | Var
  | LetKind
  | Const
deriving DecidableEq, Repr

/-- One declarator of a variable declaration: a name and an optional
initializer expression. -/
structure VarDeclarator where
  name : String
  init : Option Expr
  span : Span
deriving DecidableEq, Repr

/-- Statement nodes: expression statements, variable declarations and a
type-alias declaration (whose right-hand side is pure type syntax). -/
inductive Stmt where
  | exprStmt : Expr → Span → Stmt
  | varDecl : VarDeclKind → List VarDeclarator → Span → Stmt
  | tsTypeAlias : String → TsType → Span → Stmt
deriving DecidableEq, Repr

/-- `ProgramRef`: the two alternative top-level shapes handed to
`lint_program` — a module (import/export capable) or a script. -/
inductive ProgramRef where
  | Module : List Stmt → ProgramRef
  | Script : List Stmt → ProgramRef
deriving DecidableEq, Repr

/-- One reported violation: span, rule code, message and optional hint. -/
structure Diagnostic where
  span : Span
  code : String
  message : String
  hint : Option String
deriving DecidableEq, Repr

/-- The per-run diagnostic sink: an append-only ordered sequence of
diagnostics (the only part of the Rust `Context` this rule touches). -/
abbrev Context := List Diagnostic

/-- A freshly constructed `Context`: no diagnostics accumulated yet. -/
def Context.fresh : Context := []

/-- `Context::add_diagnostic_with_hint`: appends one diagnostic carrying a
hint. Fire-and-forget, no failure path. -/
def Context.add_diagnostic_with_hint (ctx : Context) (span : Span)
    (code : String) (message : String) (hint : String) : Context :=
  ctx ++ [{ span := span, code := code, message := message, hint := some hint }]

/-- `const CODE: &str = "no-delete-var";` -/
def CODE : String := "no-delete-var"

/-- The rule message enum (one variant, `Unexpected`). -/
inductive NoDeleteVarMessage where
  | Unexpected
deriving DecidableEq, Repr

/-- The `derive_more::Display` rendering of `NoDeleteVarMessage`. -/
def NoDeleteVarMessage.display : NoDeleteVarMessage → String
  | NoDeleteVarMessage.Unexpected => "Variables shouldn\x27t be deleted"

/-- The rule hint enum (one variant, `Remove`). -/
inductive NoDeleteVarHint where
  | Remove
deriving DecidableEq, Repr

/-- The `derive_more::Display` rendering of `NoDeleteVarHint`. -/
def NoDeleteVarHint.display : NoDeleteVarHint → String
  | NoDeleteVarHint.Remove => "Remove the deletion statement"

namespace NoDeleteVarVisitor

/-- The overridden `visit_unary_expr` of `NoDeleteVarVisitor`: early-return
when the operator is not delete; otherwise emit one diagnostic when the
operand is a bare identifier. It never recurses into the operand (the Rust
override does not call the default child traversal). -/
def visit_unary_expr (ctx : Context) (op : UnaryOp) (span : Span)
    (arg : Expr) : Context :=
  if op ≠ UnaryOp.Delete then
    ctx
  else
    match arg with
    | Expr.ident _ _ =>
        ctx.add_diagnostic_with_hint span CODE
          NoDeleteVarMessage.Unexpected.display
          NoDeleteVarHint.Remove.display
    | _ => ctx

/-- `noop_visit_type!()`: every visit method for type-level nodes is a no-op
that does not descend into the type sub-tree. -/
def visit_ts_type (ctx : Context) (_t : TsType) : Context := ctx

/-- The default pre-order traversal over expressions, with the rule's
override dispatched at unary expressions (which therefore stops descent
there) and children otherwise visited left-to-right. -/
def visit_expr (ctx : Context) : Expr → Context
  | Expr.ident _ _ => ctx
  | Expr.lit _ _ => ctx
  | Expr.unary op sp arg => visit_unary_expr ctx op sp arg
  | Expr.member obj _ _ => visit_expr ctx obj
  | Expr.computedMember obj prop _ => visit_expr (visit_expr ctx obj) prop
  | Expr.paren e _ => visit_expr ctx e
  | Expr.bin lhs rhs _ => visit_expr (visit_expr ctx lhs) rhs

/-- Default visit of one variable declarator: the pattern is a plain name
(nothing to emit), then the optional initializer expression is visited. -/
def visit_var_declarator (ctx : Context) (d : VarDeclarator) : Context :=
  match d.init with
  | none => ctx
  | some e => visit_expr ctx e

/-- Default visit of a declarator list, left to right. -/
def visit_var_declarators (ctx : Context) (ds : List VarDeclarator) : Context :=
  ds.foldl visit_var_declarator ctx

/-- Default visit of one statement. A type-alias declaration holds pure type
syntax, so `noop_visit_type!()` makes its visit a no-op. -/
def visit_stmt (ctx : Context) : Stmt → Context
  | Stmt.exprStmt e _ => visit_expr ctx e
  | Stmt.varDecl _ ds _ => visit_var_declarators ctx ds
  | Stmt.tsTypeAlias _ t _ => visit_ts_type ctx t

/-- Default visit of a statement list, in source order. -/
def visit_stmts (ctx : Context) (ss : List Stmt) : Context :=
  ss.foldl visit_stmt ctx

/-- `visit_module`: traverse the items of a module. -/
def visit_module (ctx : Context) (m : List Stmt) : Context :=
  visit_stmts ctx m

/-- `visit_script`: traverse the statements of a script. -/
def visit_script (ctx : Context) (s : List Stmt) : Context :=
  visit_stmts ctx s

end NoDeleteVarVisitor

/-- `pub struct NoDeleteVar;` — a stateless unit rule value. -/
structure NoDeleteVar where
deriving DecidableEq, Repr

/-- `NoDeleteVar::new()`. -/
def NoDeleteVar.new : NoDeleteVar := {}

/-- `fn tags(&self)`: the grouping labels of the rule. -/
def NoDeleteVar.tags (_rule : NoDeleteVar) : List String := ["recommended"]

/-- `fn code(&self)`: the permanent diagnostic code of the rule. -/
def NoDeleteVar.code (_rule : NoDeleteVar) : String := CODE

/-- `fn lint_program(&self, context, program)`: dispatch on the two top-level
program shapes and run the visitor bound to the context. -/
def NoDeleteVar.lint_program (_rule : NoDeleteVar) (context : Context)
    (program : ProgramRef) : Context :=
  match program with
  | ProgramRef.Module m => NoDeleteVarVisitor.visit_module context m
  | ProgramRef.Script s => NoDeleteVarVisitor.visit_script context s

/-- Explicit state-passing form of `lint_program`: the Rust call mutates the
context through `&mut` and borrows the program immutably, so the state is the
pair (context, program). The function is total (the Rust body has no failure
path) and returns no separate value. -/
def NoDeleteVar.lint_program_run (rule : NoDeleteVar) :
    Context × ProgramRef → Context × ProgramRef
  | (context, program) => (rule.lint_program context program, program)

/-- The diagnostics the visitor appends while traversing one expression
(pure characterization of the accumulating visitor, mirroring it case by
case; proved equal to `visit_expr` below). -/
def emittedExpr : Expr → List Diagnostic
  | Expr.ident _ _ => []
  | Expr.lit _ _ => []
  | Expr.unary op sp arg =>
      if op ≠ UnaryOp.Delete then []
      else
        match arg with
        | Expr.ident _ _ =>
            [{ span := sp, code := CODE,
               message := NoDeleteVarMessage.Unexpected.display,
               hint := some NoDeleteVarHint.Remove.display }]
        | _ => []
  | Expr.member obj _ _ => emittedExpr obj
  | Expr.computedMember obj prop _ => emittedExpr obj ++ emittedExpr prop
  | Expr.paren e _ => emittedExpr e
  | Expr.bin lhs rhs _ => emittedExpr lhs ++ emittedExpr rhs

/-- Diagnostics appended while visiting one declarator. -/
def emittedDeclarator (d : VarDeclarator) : List Diagnostic :=
  match d.init with
  | none => []
  | some e => emittedExpr e

/-- Diagnostics appended while visiting a declarator list. -/
def emittedDeclarators : List VarDeclarator → List Diagnostic
  | [] => []
  | d :: rest => emittedDeclarator d ++ emittedDeclarators rest

/-- Diagnostics appended while visiting one statement. -/
def emittedStmt : Stmt → List Diagnostic
  | Stmt.exprStmt e _ => emittedExpr e
  | Stmt.varDecl _ ds _ => emittedDeclarators ds
  | Stmt.tsTypeAlias _ _ _ => []

/-- Diagnostics appended while visiting a statement list. -/
def emittedStmts : List Stmt → List Diagnostic
  | [] => []
  | s :: rest => emittedStmt s ++ emittedStmts rest

/-- Diagnostics appended by one `lint_program` run. -/
def emittedProgram : ProgramRef → List Diagnostic
  | ProgramRef.Module m => emittedStmts m
  | ProgramRef.Script s => emittedStmts s

/-- Spec-side: the diagnostic shape the specification prescribes for one
violation at a given span (code, message, hint all fixed). -/
def specDiagnostic (sp : Span) : Diagnostic :=
  { span := sp
    code := "no-delete-var"
    message := "Variables shouldn\x27t be deleted"
    hint := some "Remove the deletion statement" }

/-- Spec-side: the spans of ALL occurrences of `delete <identifier>` in an
expression, at arbitrary nesting depth, in pre-order. -/
def deleteIdentSpansExpr : Expr → List Span
  | Expr.ident _ _ => []
  | Expr.lit _ _ => []
  | Expr.unary op sp arg =>
      (if op = UnaryOp.Delete then
        (if arg.isIdent then [sp] else [])
       else []) ++ deleteIdentSpansExpr arg
  | Expr.member obj _ _ => deleteIdentSpansExpr obj
  | Expr.computedMember obj prop _ =>
      deleteIdentSpansExpr obj ++ deleteIdentSpansExpr prop
  | Expr.paren e _ => deleteIdentSpansExpr e
  | Expr.bin lhs rhs _ => deleteIdentSpansExpr lhs ++ deleteIdentSpansExpr rhs

/-- Spans of all `delete <identifier>` occurrences under a type-level node. -/
def deleteIdentSpansTsType : TsType → List Span
  | TsType.typeRef _ _ => []
  | TsType.exprHolder e _ => deleteIdentSpansExpr e

/-- Spans of all `delete <identifier>` occurrences under a declarator. -/
def deleteIdentSpansDeclarator (d : VarDeclarator) : List Span :=
  match d.init with
  | none => []
  | some e => deleteIdentSpansExpr e

/-- Spans of all `delete <identifier>` occurrences under a declarator list. -/
def deleteIdentSpansDeclarators : List VarDeclarator → List Span
  | [] => []
  | d :: rest => deleteIdentSpansDeclarator d ++ deleteIdentSpansDeclarators rest

/-- Spans of all `delete <identifier>` occurrences under one statement
(including occurrences inside type-level sub-trees). -/
def deleteIdentSpansStmt : Stmt → List Span
  | Stmt.exprStmt e _ => deleteIdentSpansExpr e
  | Stmt.varDecl _ ds _ => deleteIdentSpansDeclarators ds
  | Stmt.tsTypeAlias _ t _ => deleteIdentSpansTsType t

/-- Spans of all `delete <identifier>` occurrences in a statement list. -/
def deleteIdentSpansStmts : List Stmt → List Span
  | [] => []
  | s :: rest => deleteIdentSpansStmt s ++ deleteIdentSpansStmts rest

/-- Spans of all `delete <identifier>` occurrences in a whole program, in
pre-order (source order). -/
def deleteIdentSpansProgram : ProgramRef → List Span
  | ProgramRef.Module m => deleteIdentSpansStmts m
  | ProgramRef.Script s => deleteIdentSpansStmts s

/-- Spec-side: the number N of occurrences of `delete <identifier>` in a
syntax tree, at arbitrary nesting depths. -/
def countDeleteIdentProgram (p : ProgramRef) : Nat :=
  (deleteIdentSpansProgram p).length

/-- An expression is unshadowed when no `delete <identifier>` occurrence in
it sits inside the operand of a unary expression (where the overridden
`visit_unary_expr` stops descent). -/
def unshadowedExpr : Expr → Bool
  | Expr.ident _ _ => true
  | Expr.lit _ _ => true
  | Expr.unary _ _ arg => (deleteIdentSpansExpr arg).isEmpty
  | Expr.member obj _ _ => unshadowedExpr obj
  | Expr.computedMember obj prop _ => unshadowedExpr obj && unshadowedExpr prop
  | Expr.paren e _ => unshadowedExpr e
  | Expr.bin lhs rhs _ => unshadowedExpr lhs && unshadowedExpr rhs

/-- Unshadowed declarator: its initializer, when present, is unshadowed. -/
def unshadowedDeclarator (d : VarDeclarator) : Bool :=
  match d.init with
  | none => true
  | some e => unshadowedExpr e

/-- Unshadowed declarator list. -/
def unshadowedDeclarators : List VarDeclarator → Bool
  | [] => true
  | d :: rest => unshadowedDeclarator d && unshadowedDeclarators rest

/-- Unshadowed statement: no `delete <identifier>` occurrence of it sits
inside a unary operand or inside a type-level sub-tree. -/
def unshadowedStmt : Stmt → Bool
  | Stmt.exprStmt e _ => unshadowedExpr e
  | Stmt.varDecl _ ds _ => unshadowedDeclarators ds
  | Stmt.tsTypeAlias _ t _ => (deleteIdentSpansTsType t).isEmpty

/-- Unshadowed statement list. -/
def unshadowedStmts : List Stmt → Bool
  | [] => true
  | s :: rest => unshadowedStmt s && unshadowedStmts rest

/-- Unshadowed program: no `delete <identifier>` occurrence sits inside the
operand of another unary expression or inside a type-annotation sub-tree. -/
def unshadowedProgram : ProgramRef → Bool
  | ProgramRef.Module m => unshadowedStmts m
  | ProgramRef.Script s => unshadowedStmts s

/-- Spans of the `delete <identifier>` occurrences of one statement that sit
in value-level positions (everything under a type-alias right-hand side is
type-level and excluded). -/
def valueDeleteIdentSpansStmt : Stmt → List Span
  | Stmt.exprStmt e _ => deleteIdentSpansExpr e
  | Stmt.varDecl _ ds _ => deleteIdentSpansDeclarators ds
  | Stmt.tsTypeAlias _ _ _ => []

/-- Value-level `delete <identifier>` spans of a statement list. -/
def valueDeleteIdentSpansStmts : List Stmt → List Span
  | [] => []
  | s :: rest => valueDeleteIdentSpansStmt s ++ valueDeleteIdentSpansStmts rest

/-- Value-level `delete <identifier>` spans of a whole program: a program
whose delete-of-identifier expressions occur only inside type-level
sub-trees has an empty value-level span list. -/
def valueDeleteIdentSpansProgram : ProgramRef → List Span
  | ProgramRef.Module m => valueDeleteIdentSpansStmts m
  | ProgramRef.Script s => valueDeleteIdentSpansStmts s

/-- The program of the `no_delete_var_invalid` test:
`var someVar = "someVar"; delete someVar;` with byte-accurate spans (the
`delete someVar` unary expression starts at byte/column 25). -/
def noDeleteVarInvalidProgram : ProgramRef :=
  ProgramRef.Script
    [ Stmt.varDecl VarDeclKind.Var
        [{ name := "someVar"
           init := some (Expr.lit "someVar" { lo := 14, hi := 23 })
           span := { lo := 4, hi := 23 } }]
        { lo := 0, hi := 24 }
    , Stmt.exprStmt
        (Expr.unary UnaryOp.Delete { lo := 25, hi := 39 }
          (Expr.ident "someVar" { lo := 32, hi := 39 }))
        { lo := 25, hi := 40 } ]

/-- The program `delete (delete x);`: it contains exactly one occurrence of
`delete <identifier>` (the inner one; the outer operand is a parenthesized
expression, not an identifier), nested inside the operand of the outer
delete. -/
def deleteParenDeleteProgram : ProgramRef :=
  ProgramRef.Script
    [ Stmt.exprStmt
        (Expr.unary UnaryOp.Delete { lo := 0, hi := 17 }
          (Expr.paren
            (Expr.unary UnaryOp.Delete { lo := 8, hi := 16 }
              (Expr.ident "x" { lo := 15, hi := 16 }))
            { lo := 7, hi := 17 }))
        { lo := 0, hi := 18 } ]

/-- The program `var obj = "o"; delete obj.a;`: the delete operand is a
member access, not a bare identifier. -/
def deleteMemberProgram : ProgramRef :=
  ProgramRef.Script
    [ Stmt.varDecl VarDeclKind.Var
        [{ name := "obj"
           init := some (Expr.lit "o" { lo := 10, hi := 13 })
           span := { lo := 4, hi := 13 } }]
        { lo := 0, hi := 14 }
    , Stmt.exprStmt
        (Expr.unary UnaryOp.Delete { lo := 15, hi := 27 }
          (Expr.member (Expr.ident "obj" { lo := 22, hi := 25 }) "a"
            { lo := 22, hi := 27 }))
        { lo := 15, hi := 28 } ]

/-- A program whose only `delete <identifier>` expression sits inside a
type-level sub-tree (the right-hand side of a type alias). -/
def deleteInsideTypeProgram : ProgramRef :=
  ProgramRef.Script
    [ Stmt.tsTypeAlias "T"
        (TsType.exprHolder
          (Expr.unary UnaryOp.Delete { lo := 9, hi := 17 }
            (Expr.ident "x" { lo := 16, hi := 17 }))
          { lo := 9, hi := 17 })
        { lo := 0, hi := 18 } ]

/-- The visitor threads the context as an accumulator: visiting an expression
appends exactly `emittedExpr e` to the incoming context. -/
theorem visit_expr_eq_append (e : Expr) : ∀ ctx : Context,
    NoDeleteVarVisitor.visit_expr ctx e = ctx ++ emittedExpr e := by
  induction e with
  | ident n sp =>
      intro ctx; simp [NoDeleteVarVisitor.visit_expr, emittedExpr]
  | lit s sp =>
      intro ctx; simp [NoDeleteVarVisitor.visit_expr, emittedExpr]
  | unary op sp arg ih =>
      intro ctx
      by_cases hop : op = UnaryOp.Delete
      · subst hop
        cases arg <;>
          simp [NoDeleteVarVisitor.visit_expr,
            NoDeleteVarVisitor.visit_unary_expr, emittedExpr,
            Context.add_diagnostic_with_hint]
      · simp [NoDeleteVarVisitor.visit_expr,
          NoDeleteVarVisitor.visit_unary_expr, emittedExpr, hop]
  | member obj prop sp ih =>
      intro ctx; simp [NoDeleteVarVisitor.visit_expr, emittedExpr, ih]
  | computedMember obj prop sp ih1 ih2 =>
      intro ctx
      simp [NoDeleteVarVisitor.visit_expr, emittedExpr, ih1, ih2]
  | paren e1 sp ih =>
      intro ctx; simp [NoDeleteVarVisitor.visit_expr, emittedExpr, ih]
  | bin lhs rhs sp ih1 ih2 =>
      intro ctx
      simp [NoDeleteVarVisitor.visit_expr, emittedExpr, ih1, ih2]

/-- Declarator-level accumulator characterization. -/
theorem visit_var_declarator_eq_append (d : VarDeclarator) (ctx : Context) :
    NoDeleteVarVisitor.visit_var_declarator ctx d
      = ctx ++ emittedDeclarator d := by
  cases h : d.init with
  | none =>
      simp [NoDeleteVarVisitor.visit_var_declarator, emittedDeclarator, h]
  | some e =>
      simp [NoDeleteVarVisitor.visit_var_declarator, emittedDeclarator, h,
        visit_expr_eq_append]

/-- Declarator-list accumulator characterization. -/
theorem visit_var_declarators_eq_append (ds : List VarDeclarator) :
    ∀ ctx : Context,
      NoDeleteVarVisitor.visit_var_declarators ctx ds
        = ctx ++ emittedDeclarators ds := by
  induction ds with
  | nil =>
      intro ctx
      simp [NoDeleteVarVisitor.visit_var_declarators, emittedDeclarators]
  | cons d rest ih =>
      intro ctx
      have step : NoDeleteVarVisitor.visit_var_declarators ctx (d :: rest)
          = NoDeleteVarVisitor.visit_var_declarators
              (NoDeleteVarVisitor.visit_var_declarator ctx d) rest := rfl
      rw [step, ih, visit_var_declarator_eq_append]
      simp [emittedDeclarators]

/-- Statement-level accumulator characterization. -/
theorem visit_stmt_eq_append (s : Stmt) (ctx : Context) :
    NoDeleteVarVisitor.visit_stmt ctx s = ctx ++ emittedStmt s := by
  cases s with
  | exprStmt e sp =>
      simp [NoDeleteVarVisitor.visit_stmt, emittedStmt, visit_expr_eq_append]
  | varDecl k ds sp =>
      simp [NoDeleteVarVisitor.visit_stmt, emittedStmt,
        visit_var_declarators_eq_append]
  | tsTypeAlias n t sp =>
      simp [NoDeleteVarVisitor.visit_stmt, emittedStmt,
        NoDeleteVarVisitor.visit_ts_type]

/-- Statement-list accumulator characterization. -/
theorem visit_stmts_eq_append (ss : List Stmt) : ∀ ctx : Context,
    NoDeleteVarVisitor.visit_stmts ctx ss = ctx ++ emittedStmts ss := by
  induction ss with
  | nil =>
      intro ctx
      simp [NoDeleteVarVisitor.visit_stmts, emittedStmts]
  | cons s rest ih =>
      intro ctx
      have step : NoDeleteVarVisitor.visit_stmts ctx (s :: rest)
          = NoDeleteVarVisitor.visit_stmts
              (NoDeleteVarVisitor.visit_stmt ctx s) rest := rfl
      rw [step, ih, visit_stmt_eq_append]
      simp [emittedStmts]

/-- `lint_program` appends exactly `emittedProgram program` to the context it
is handed, for either top-level program shape. -/
theorem lint_program_eq_append (rule : NoDeleteVar) (ctx : Context)
    (program : ProgramRef) :
    rule.lint_program ctx program = ctx ++ emittedProgram program := by
  cases program with
  | Module m =>
      simp [NoDeleteVar.lint_program, NoDeleteVarVisitor.visit_module,
        emittedProgram, visit_stmts_eq_append]
  | Script s =>
      simp [NoDeleteVar.lint_program, NoDeleteVarVisitor.visit_script,
        emittedProgram, visit_stmts_eq_append]

/-- Every diagnostic the visitor emits over an expression is the fixed-shape
diagnostic at its own span. -/
theorem emittedExpr_shape (e : Expr) :
    ∀ d ∈ emittedExpr e, d = specDiagnostic d.span := by
  induction e with
  | ident n sp => simp [emittedExpr]
  | lit s sp => simp [emittedExpr]
  | unary op sp arg ih =>
      intro d hd
      by_cases hop : op = UnaryOp.Delete
      · subst hop
        cases arg <;> simp [emittedExpr] at hd
        subst hd
        simp [specDiagnostic, CODE, NoDeleteVarMessage.display,
          NoDeleteVarHint.display]
      · simp [emittedExpr, hop] at hd
  | member obj prop sp ih => simpa [emittedExpr] using ih
  | computedMember obj prop sp ih1 ih2 =>
      intro d hd
      rcases List.mem_append.mp (by simpa [emittedExpr] using hd) with h1 | h2
      · exact ih1 d h1
      · exact ih2 d h2
  | paren e1 sp ih => simpa [emittedExpr] using ih
  | bin lhs rhs sp ih1 ih2 =>
      intro d hd
      rcases List.mem_append.mp (by simpa [emittedExpr] using hd) with h1 | h2
      · exact ih1 d h1
      · exact ih2 d h2

/-- Fixed-shape property lifted to declarators. -/
theorem emittedDeclarator_shape (d : VarDeclarator) :
    ∀ x ∈ emittedDeclarator d, x = specDiagnostic x.span := by
  cases h : d.init with
  | none => simp [emittedDeclarator, h]
  | some e => simpa [emittedDeclarator, h] using emittedExpr_shape e

/-- Fixed-shape property lifted to declarator lists. -/
theorem emittedDeclarators_shape (ds : List VarDeclarator) :
    ∀ x ∈ emittedDeclarators ds, x = specDiagnostic x.span := by
  induction ds with
  | nil => simp [emittedDeclarators]
  | cons d rest ih =>
      intro x hx
      rcases List.mem_append.mp (by simpa [emittedDeclarators] using hx)
        with h1 | h2
      · exact emittedDeclarator_shape d x h1
      · exact ih x h2

/-- Fixed-shape property lifted to statements. -/
theorem emittedStmt_shape (s : Stmt) :
    ∀ x ∈ emittedStmt s, x = specDiagnostic x.span := by
  cases s with
  | exprStmt e sp => simpa [emittedStmt] using emittedExpr_shape e
  | varDecl k ds sp => simpa [emittedStmt] using emittedDeclarators_shape ds
  | tsTypeAlias n t sp => simp [emittedStmt]

/-- Fixed-shape property lifted to statement lists. -/
theorem emittedStmts_shape (ss : List Stmt) :
    ∀ x ∈ emittedStmts ss, x = specDiagnostic x.span := by
  induction ss with
  | nil => simp [emittedStmts]
  | cons s rest ih =>
      intro x hx
      rcases List.mem_append.mp (by simpa [emittedStmts] using hx) with h1 | h2
      · exact emittedStmt_shape s x h1
      · exact ih x h2

/-- Fixed-shape property for whole-program runs. -/
theorem emittedProgram_shape (p : ProgramRef) :
    ∀ x ∈ emittedProgram p, x = specDiagnostic x.span := by
  cases p with
  | Module m => simpa [emittedProgram] using emittedStmts_shape m
  | Script s => simpa [emittedProgram] using emittedStmts_shape s

/-- On an unshadowed expression the visitor emits exactly one fixed-shape
diagnostic per `delete <identifier>` occurrence, in pre-order. -/
theorem emittedExpr_unshadowed (e : Expr) :
    unshadowedExpr e = true →
      emittedExpr e = (deleteIdentSpansExpr e).map specDiagnostic := by
  induction e with
  | ident n sp => intro h; simp [emittedExpr, deleteIdentSpansExpr]
  | lit s sp => intro h; simp [emittedExpr, deleteIdentSpansExpr]
  | unary op sp arg ih =>
      intro h
      have harg : deleteIdentSpansExpr arg = [] := by
        simpa [unshadowedExpr, List.isEmpty_iff] using h
      by_cases hop : op = UnaryOp.Delete
      · subst hop
        rw [show deleteIdentSpansExpr (Expr.unary UnaryOp.Delete sp arg)
              = (if arg.isIdent then [sp] else []) ++ deleteIdentSpansExpr arg
            from by simp [deleteIdentSpansExpr], harg, List.append_nil]
        cases arg <;>
          simp [emittedExpr, Expr.isIdent, specDiagnostic, CODE,
            NoDeleteVarMessage.display, NoDeleteVarHint.display]
      · simp [emittedExpr, deleteIdentSpansExpr, hop, harg]
  | member obj prop sp ih =>
      intro h
      have := ih (by simpa [unshadowedExpr] using h)
      simp [emittedExpr, deleteIdentSpansExpr, this]
  | computedMember obj prop sp ih1 ih2 =>
      intro h
      have hpair := Bool.and_eq_true_iff.mp (by simpa [unshadowedExpr] using h)
      simp [emittedExpr, deleteIdentSpansExpr, ih1 hpair.1, ih2 hpair.2]
  | paren e1 sp ih =>
      intro h
      have := ih (by simpa [unshadowedExpr] using h)
      simp [emittedExpr, deleteIdentSpansExpr, this]
  | bin lhs rhs sp ih1 ih2 =>
      intro h
      have hpair := Bool.and_eq_true_iff.mp (by simpa [unshadowedExpr] using h)
      simp [emittedExpr, deleteIdentSpansExpr, ih1 hpair.1, ih2 hpair.2]

/-- Unshadowed correspondence lifted to declarators. -/
theorem emittedDeclarator_unshadowed (d : VarDeclarator) :
    unshadowedDeclarator d = true →
      emittedDeclarator d = (deleteIdentSpansDeclarator d).map specDiagnostic := by
  cases h : d.init with
  | none =>
      intro hu
      simp [emittedDeclarator, deleteIdentSpansDeclarator, h]
  | some e =>
      intro hu
      have he : unshadowedExpr e = true := by
        simpa [unshadowedDeclarator, h] using hu
      simp [emittedDeclarator, deleteIdentSpansDeclarator, h,
        emittedExpr_unshadowed e he]

/-- Unshadowed correspondence lifted to declarator lists. -/
theorem emittedDeclarators_unshadowed (ds : List VarDeclarator) :
    unshadowedDeclarators ds = true →
      emittedDeclarators ds
        = (deleteIdentSpansDeclarators ds).map specDiagnostic := by
  induction ds with
  | nil => intro h; simp [emittedDeclarators, deleteIdentSpansDeclarators]
  | cons d rest ih =>
      intro h
      have hpair := Bool.and_eq_true_iff.mp
        (by simpa [unshadowedDeclarators] using h)
      simp [emittedDeclarators, deleteIdentSpansDeclarators,
        emittedDeclarator_unshadowed d hpair.1, ih hpair.2]

/-- Unshadowed correspondence lifted to statements. -/
theorem emittedStmt_unshadowed (s : Stmt) :
    unshadowedStmt s = true →
      emittedStmt s = (deleteIdentSpansStmt s).map specDiagnostic := by
  cases s with
  | exprStmt e sp =>
      intro h
      have he : unshadowedExpr e = true := by simpa [unshadowedStmt] using h
      simp [emittedStmt, deleteIdentSpansStmt, emittedExpr_unshadowed e he]
  | varDecl k ds sp =>
      intro h
      have hd : unshadowedDeclarators ds = true := by
        simpa [unshadowedStmt] using h
      simp [emittedStmt, deleteIdentSpansStmt,
        emittedDeclarators_unshadowed ds hd]
  | tsTypeAlias n t sp =>
      intro h
      have ht : deleteIdentSpansTsType t = [] := by
        simpa [unshadowedStmt, List.isEmpty_iff] using h
      simp [emittedStmt, deleteIdentSpansStmt, ht]

/-- Unshadowed correspondence lifted to statement lists. -/
theorem emittedStmts_unshadowed (ss : List Stmt) :
    unshadowedStmts ss = true →
      emittedStmts ss = (deleteIdentSpansStmts ss).map specDiagnostic := by
  induction ss with
  | nil => intro h; simp [emittedStmts, deleteIdentSpansStmts]
  | cons s rest ih =>
      intro h
      have hpair := Bool.and_eq_true_iff.mp (by simpa [unshadowedStmts] using h)
      simp [emittedStmts, deleteIdentSpansStmts,
        emittedStmt_unshadowed s hpair.1, ih hpair.2]

/-- Unshadowed correspondence for whole programs. -/
theorem emittedProgram_unshadowed (p : ProgramRef) :
    unshadowedProgram p = true →
      emittedProgram p = (deleteIdentSpansProgram p).map specDiagnostic := by
  cases p with
  | Module m =>
      intro h
      simpa [emittedProgram, deleteIdentSpansProgram] using
        emittedStmts_unshadowed m (by simpa [unshadowedProgram] using h)
  | Script s =>
      intro h
      simpa [emittedProgram, deleteIdentSpansProgram] using
        emittedStmts_unshadowed s (by simpa [unshadowedProgram] using h)

/-- The visitor never emits more diagnostics over an expression than the
expression has `delete <identifier>` occurrences. -/
theorem emittedExpr_length_le (e : Expr) :
    (emittedExpr e).length ≤ (deleteIdentSpansExpr e).length := by
  induction e with
  | ident n sp => simp [emittedExpr, deleteIdentSpansExpr]
  | lit s sp => simp [emittedExpr, deleteIdentSpansExpr]
  | unary op sp arg ih =>
      by_cases hop : op = UnaryOp.Delete
      · subst hop
        cases arg <;>
          simp [emittedExpr, deleteIdentSpansExpr, Expr.isIdent]
      · simp [emittedExpr, deleteIdentSpansExpr, hop]
  | member obj prop sp ih => simpa [emittedExpr, deleteIdentSpansExpr] using ih
  | computedMember obj prop sp ih1 ih2 =>
      simp only [emittedExpr, deleteIdentSpansExpr, List.length_append]
      omega
  | paren e1 sp ih => simpa [emittedExpr, deleteIdentSpansExpr] using ih
  | bin lhs rhs sp ih1 ih2 =>
      simp only [emittedExpr, deleteIdentSpansExpr, List.length_append]
      omega

/-- Length bound against value-level occurrences, per statement. -/
theorem emittedStmt_length_le (s : Stmt) :
    (emittedStmt s).length ≤ (valueDeleteIdentSpansStmt s).length := by
  cases s with
  | exprStmt e sp =>
      simpa [emittedStmt, valueDeleteIdentSpansStmt] using
        emittedExpr_length_le e
  | varDecl k ds sp =>
      simp only [emittedStmt, valueDeleteIdentSpansStmt]
      induction ds with
      | nil => simp [emittedDeclarators, deleteIdentSpansDeclarators]
      | cons d rest ih =>
          have hd : (emittedDeclarator d).length
              ≤ (deleteIdentSpansDeclarator d).length := by
            cases h : d.init with
            | none => simp [emittedDeclarator, deleteIdentSpansDeclarator, h]
            | some e =>
                simpa [emittedDeclarator, deleteIdentSpansDeclarator, h] using
                  emittedExpr_length_le e
          simp only [emittedDeclarators, deleteIdentSpansDeclarators,
            List.length_append]
          omega
  | tsTypeAlias n t sp => simp [emittedStmt, valueDeleteIdentSpansStmt]

/-- Length bound against value-level occurrences, per statement list. -/
theorem emittedStmts_length_le (ss : List Stmt) :
    (emittedStmts ss).length ≤ (valueDeleteIdentSpansStmts ss).length := by
  induction ss with
  | nil => simp [emittedStmts, valueDeleteIdentSpansStmts]
  | cons s rest ih =>
      have hs := emittedStmt_length_le s
      simp only [emittedStmts, valueDeleteIdentSpansStmts, List.length_append]
      omega

/-- Length bound against value-level occurrences, per program. -/
theorem emittedProgram_length_le (p : ProgramRef) :
    (emittedProgram p).length ≤ (valueDeleteIdentSpansProgram p).length := by
  cases p with
  | Module m =>
      simpa [emittedProgram, valueDeleteIdentSpansProgram] using
        emittedStmts_length_le m
  | Script s =>
      simpa [emittedProgram, valueDeleteIdentSpansProgram] using
        emittedStmts_length_le s

/-- C1: for every program containing a delete unary expression whose operand
is a bare identifier `v` (any declaration form `var` / `let` / `const`), the
lint produces for that expression exactly one diagnostic with code
`no-delete-var`, message `Variables shouldn\x27t be deleted`, hint
`Remove the deletion statement`, and span equal to the span of the whole
delete expression; in particular the test program
`var someVar = "someVar"; delete someVar;` yields exactly one such
diagnostic whose span starts at column 25. -/
theorem no_delete_var_detects_bare_identifier_deletion :
    (∀ (k : VarDeclKind) (v s : String) (sp1 sp2 sp3 sp4 sp5 sp6 : Span),
      NoDeleteVar.new.lint_program Context.fresh
        (ProgramRef.Script
          [ Stmt.varDecl k
              [{ name := v, init := some (Expr.lit s sp1), span := sp2 }] sp3
          , Stmt.exprStmt
              (Expr.unary UnaryOp.Delete sp4 (Expr.ident v sp5)) sp6 ])
        = [{ span := sp4, code := "no-delete-var",
             message := "Variables shouldn\x27t be deleted",
             hint := some "Remove the deletion statement" }])
    ∧ NoDeleteVar.new.lint_program Context.fresh noDeleteVarInvalidProgram
        = [specDiagnostic { lo := 25, hi := 39 }]
    ∧ (specDiagnostic { lo := 25, hi := 39 }).span.lo = 25
    ∧ (NoDeleteVar.new.lint_program Context.fresh
        noDeleteVarInvalidProgram).length = 1 := by
  refine ⟨?_, rfl, rfl, rfl⟩
  intro k v s sp1 sp2 sp3 sp4 sp5 sp6
  rfl

/-- C2 counterexample: the program `delete (delete x);` contains exactly one
occurrence of `delete <identifier>` (nested inside the operand of the outer
delete), yet the lint emits zero diagnostics — so a tree with N occurrences
at arbitrary nesting depths does not in general produce N diagnostics. -/
theorem nested_delete_occurrence_yields_no_diagnostic :
    countDeleteIdentProgram deleteParenDeleteProgram = 1
    ∧ NoDeleteVar.new.lint_program Context.fresh deleteParenDeleteProgram = []
    ∧ (NoDeleteVar.new.lint_program Context.fresh
          deleteParenDeleteProgram).length
        ≠ countDeleteIdentProgram deleteParenDeleteProgram := by
  exact ⟨by decide, rfl, by decide⟩

/-- C2 (amended): for every syntax tree containing N occurrences of
`delete <identifier>`, none of which lies inside the operand of another
unary expression or inside a type-annotation sub-tree, the lint produces
exactly N diagnostics, one per occurrence, in source (pre-order) order, each
of the fixed prescribed shape. -/
theorem traversal_counts_unshadowed_occurrences :
    ∀ p : ProgramRef, unshadowedProgram p = true →
      NoDeleteVar.new.lint_program Context.fresh p
          = (deleteIdentSpansProgram p).map specDiagnostic
        ∧ (NoDeleteVar.new.lint_program Context.fresh p).length
            = countDeleteIdentProgram p := by
  intro p hp
  have h1 : NoDeleteVar.new.lint_program Context.fresh p
      = (deleteIdentSpansProgram p).map specDiagnostic := by
    rw [lint_program_eq_append, emittedProgram_unshadowed p hp]
    simp [Context.fresh]
  exact ⟨h1, by simp [h1, countDeleteIdentProgram]⟩

/-- C2 witness: the two-statement test program is unshadowed and the amended
statement evaluates on it. -/
theorem traversal_counts_unshadowed_occurrences_witness :
    unshadowedProgram noDeleteVarInvalidProgram = true
    ∧ (NoDeleteVar.new.lint_program Context.fresh noDeleteVarInvalidProgram
          = (deleteIdentSpansProgram noDeleteVarInvalidProgram).map
              specDiagnostic
        ∧ (NoDeleteVar.new.lint_program Context.fresh
              noDeleteVarInvalidProgram).length
            = countDeleteIdentProgram noDeleteVarInvalidProgram) :=
  ⟨by decide,
    traversal_counts_unshadowed_occurrences noDeleteVarInvalidProgram
      (by decide)⟩

/-- C3: deleting a member access or computed member access (rather than a
bare identifier) produces zero diagnostics from this rule for that
expression, whatever the object expression and property; in particular the
program `var obj = "o"; delete obj.a;` yields zero diagnostics. -/
theorem member_access_deletion_not_flagged :
    (∀ (ctx : Context) (o : Expr) (p : String) (sp msp : Span),
      NoDeleteVarVisitor.visit_expr ctx
        (Expr.unary UnaryOp.Delete sp (Expr.member o p msp)) = ctx)
    ∧ (∀ (ctx : Context) (o pe : Expr) (sp msp : Span),
      NoDeleteVarVisitor.visit_expr ctx
        (Expr.unary UnaryOp.Delete sp (Expr.computedMember o pe msp)) = ctx)
    ∧ NoDeleteVar.new.lint_program Context.fresh deleteMemberProgram = [] := by
  exact ⟨fun ctx o p sp msp => rfl, fun ctx o pe sp msp => rfl, rfl⟩

/-- C4: a unary expression whose operator is anything other than delete
(logical negation, numeric negation, typeof, ...) applied to an identifier
makes the rule emit zero diagnostics for that expression. -/
theorem non_delete_unary_operator_inert :
    ∀ (ctx : Context) (op : UnaryOp) (v : String) (sp isp : Span),
      op ≠ UnaryOp.Delete →
        NoDeleteVarVisitor.visit_expr ctx
          (Expr.unary op sp (Expr.ident v isp)) = ctx := by
  intro ctx op v sp isp h
  simp [NoDeleteVarVisitor.visit_expr, NoDeleteVarVisitor.visit_unary_expr, h]

/-- C4 witness: logical negation of an identifier emits nothing. -/
theorem non_delete_unary_operator_inert_witness :
    UnaryOp.Bang ≠ UnaryOp.Delete
    ∧ NoDeleteVarVisitor.visit_expr Context.fresh
        (Expr.unary UnaryOp.Bang { lo := 0, hi := 2 }
          (Expr.ident "x" { lo := 1, hi := 2 })) = Context.fresh :=
  ⟨by decide,
    non_delete_unary_operator_inert Context.fresh UnaryOp.Bang "x"
      { lo := 0, hi := 2 } { lo := 1, hi := 2 } (by decide)⟩

/-- C5: for a fixed tree, two lint runs, each on a fresh context, yield
identical diagnostic sequences; moreover the diagnostics a run appends are a
function of the tree alone — running from any starting context appends
exactly the fresh-context output. -/
theorem lint_run_deterministic :
    ∀ p : ProgramRef,
      (∀ c1 c2 : Context, c1 = Context.fresh → c2 = Context.fresh →
        NoDeleteVar.new.lint_program c1 p = NoDeleteVar.new.lint_program c2 p)
      ∧ (∀ ctx : Context,
          NoDeleteVar.new.lint_program ctx p
            = ctx ++ NoDeleteVar.new.lint_program Context.fresh p) := by
  intro p
  constructor
  · intro c1 c2 h1 h2
    rw [h1, h2]
  · intro ctx
    rw [lint_program_eq_append, lint_program_eq_append]
    simp [Context.fresh]

/-- C5 witness: two fresh-context runs on the concrete test program agree. -/
theorem lint_run_deterministic_witness :
    NoDeleteVar.new.lint_program Context.fresh noDeleteVarInvalidProgram
      = NoDeleteVar.new.lint_program Context.fresh noDeleteVarInvalidProgram :=
  (lint_run_deterministic noDeleteVarInvalidProgram).1
    Context.fresh Context.fresh rfl rfl

/-- C6: type-annotation sub-trees are skipped: visiting a type node is a
no-op that does not descend, so any program whose `delete <identifier>`
expressions occur only inside type-level sub-trees (no value-level
occurrence) produces zero diagnostics; the concrete program with one delete
inside a type alias yields none. -/
theorem type_level_subtrees_skipped :
    (∀ (ctx : Context) (t : TsType),
        NoDeleteVarVisitor.visit_ts_type ctx t = ctx)
    ∧ (∀ p : ProgramRef, valueDeleteIdentSpansProgram p = [] →
        NoDeleteVar.new.lint_program Context.fresh p = [])
    ∧ countDeleteIdentProgram deleteInsideTypeProgram = 1
    ∧ NoDeleteVar.new.lint_program Context.fresh deleteInsideTypeProgram
        = [] := by
  refine ⟨fun ctx t => rfl, ?_, by decide, rfl⟩
  intro p hp
  have hlen := emittedProgram_length_le p
  rw [hp] at hlen
  simp only [List.length_nil, Nat.le_zero] at hlen
  rw [lint_program_eq_append]
  simpa [Context.fresh] using List.length_eq_zero.mp hlen

/-- C6 witness: the delete-inside-type program has no value-level occurrence
and lints to the empty diagnostic list. -/
theorem type_level_subtrees_skipped_witness :
    valueDeleteIdentSpansProgram deleteInsideTypeProgram = []
    ∧ NoDeleteVar.new.lint_program Context.fresh deleteInsideTypeProgram
        = [] :=
  ⟨by decide,
    type_level_subtrees_skipped.2.1 deleteInsideTypeProgram (by decide)⟩

/-- C7: `lint_program` mutates nothing but the context and returns no value:
in the explicit state-passing embedding the program component of the state is
returned unchanged, all findings appear only as context appends, and the
function is total (no failure result). -/
theorem lint_program_preserves_tree :
    ∀ (ctx : Context) (p : ProgramRef),
      (NoDeleteVar.new.lint_program_run (ctx, p)).2 = p
      ∧ NoDeleteVar.new.lint_program_run (ctx, p)
          = (ctx ++ emittedProgram p, p) := by
  intro ctx p
  refine ⟨rfl, ?_⟩
  simp [NoDeleteVar.lint_program_run, lint_program_eq_append]

/-- C8: the metadata accessors are constants independent of analysis:
`code()` always returns `no-delete-var`, `tags()` always returns exactly the
one-element collection containing `recommended`, for every rule value (the
rule type is stateless, so no lint run can affect them). -/
theorem metadata_accessors_constant :
    ∀ r : NoDeleteVar,
      r.code = "no-delete-var"
      ∧ r.tags = ["recommended"]
      ∧ r.tags.length = 1
      ∧ r = NoDeleteVar.new := by
  intro r
  exact ⟨rfl, rfl, rfl, rfl⟩

/-- C9: `visit_unary_expr` never traverses into the operand of a unary
expression: the visit result depends on the operand only through its
top-level shape (bare identifier or not), so a `delete <identifier>` nested
anywhere inside the operand of another unary expression — the inner delete
of `delete (delete x)` or of `!(delete x)` — produces no diagnostic. -/
theorem unary_operand_not_traversed :
    (∀ (ctx : Context) (op : UnaryOp) (sp : Span) (a1 a2 : Expr),
      a1.isIdent = a2.isIdent →
        NoDeleteVarVisitor.visit_expr ctx (Expr.unary op sp a1)
          = NoDeleteVarVisitor.visit_expr ctx (Expr.unary op sp a2))
    ∧ NoDeleteVarVisitor.visit_expr Context.fresh
        (Expr.unary UnaryOp.Delete { lo := 0, hi := 17 }
          (Expr.paren
            (Expr.unary UnaryOp.Delete { lo := 8, hi := 16 }
              (Expr.ident "x" { lo := 15, hi := 16 }))
            { lo := 7, hi := 17 })) = Context.fresh
    ∧ NoDeleteVarVisitor.visit_expr Context.fresh
        (Expr.unary UnaryOp.Bang { lo := 0, hi := 12 }
          (Expr.paren
            (Expr.unary UnaryOp.Delete { lo := 2, hi := 10 }
              (Expr.ident "x" { lo := 9, hi := 10 }))
            { lo := 1, hi := 11 })) = Context.fresh := by
  refine ⟨?_, rfl, rfl⟩
  intro ctx op sp a1 a2 h
  by_cases hop : op = UnaryOp.Delete
  · subst hop
    cases a1 <;> cases a2 <;> simp [Expr.isIdent] at h <;>
      simp [NoDeleteVarVisitor.visit_expr, NoDeleteVarVisitor.visit_unary_expr]
  · simp [NoDeleteVarVisitor.visit_expr,
      NoDeleteVarVisitor.visit_unary_expr, hop]

/-- C9 witness: replacing a parenthesized operand by a literal operand (both
non-identifiers) leaves the visit result unchanged. -/
theorem unary_operand_not_traversed_witness :
    (Expr.paren
        (Expr.unary UnaryOp.Delete { lo := 8, hi := 16 }
          (Expr.ident "x" { lo := 15, hi := 16 }))
        { lo := 7, hi := 17 }).isIdent
      = (Expr.lit "0" { lo := 7, hi := 8 }).isIdent
    ∧ NoDeleteVarVisitor.visit_expr Context.fresh
        (Expr.unary UnaryOp.Delete { lo := 0, hi := 17 }
          (Expr.paren
            (Expr.unary UnaryOp.Delete { lo := 8, hi := 16 }
              (Expr.ident "x" { lo := 15, hi := 16 }))
            { lo := 7, hi := 17 }))
      = NoDeleteVarVisitor.visit_expr Context.fresh
          (Expr.unary UnaryOp.Delete { lo := 0, hi := 17 }
            (Expr.lit "0" { lo := 7, hi := 8 })) :=
  ⟨by decide,
    unary_operand_not_traversed.1 Context.fresh UnaryOp.Delete
      { lo := 0, hi := 17 }
      (Expr.paren
        (Expr.unary UnaryOp.Delete { lo := 8, hi := 16 }
          (Expr.ident "x" { lo := 15, hi := 16 }))
        { lo := 7, hi := 17 })
      (Expr.lit "0" { lo := 7, hi := 8 }) (by decide)⟩

/-- C10: every diagnostic the rule ever emits, over all inputs, has the
single fixed shape — code `no-delete-var`, message
`Variables shouldn\x27t be deleted`, and a hint that is always present and
equal to `Remove the deletion statement`; moreover the message and hint
enums each have exactly one variant. -/
theorem diagnostic_shape_invariant :
    (∀ (p : ProgramRef) (d : Diagnostic),
      d ∈ NoDeleteVar.new.lint_program Context.fresh p →
        d.code = "no-delete-var"
        ∧ d.message = "Variables shouldn\x27t be deleted"
        ∧ d.hint = some "Remove the deletion statement")
    ∧ (∀ m : NoDeleteVarMessage,
        m = NoDeleteVarMessage.Unexpected
        ∧ m.display = "Variables shouldn\x27t be deleted")
    ∧ (∀ h : NoDeleteVarHint,
        h = NoDeleteVarHint.Remove
        ∧ h.display = "Remove the deletion statement") := by
  refine ⟨?_, ?_, ?_⟩
  · intro p d hd
    rw [lint_program_eq_append] at hd
    simp only [Context.fresh, List.nil_append] at hd
    have hshape := emittedProgram_shape p d hd
    rw [hshape]
    simp [specDiagnostic]
  · intro m
    cases m
    exact ⟨rfl, rfl⟩
  · intro h
    cases h
    exact ⟨rfl, rfl⟩

/-- C10 witness: the diagnostic emitted on the concrete test program is a
member of the output and has the fixed shape. -/
theorem diagnostic_shape_invariant_witness :
    (specDiagnostic { lo := 25, hi := 39 }
        ∈ NoDeleteVar.new.lint_program Context.fresh noDeleteVarInvalidProgram)
    ∧ ((specDiagnostic { lo := 25, hi := 39 }).code = "no-delete-var"
      ∧ (specDiagnostic { lo := 25, hi := 39 }).message
          = "Variables shouldn\x27t be deleted"
      ∧ (specDiagnostic { lo := 25, hi := 39 }).hint
          = some "Remove the deletion statement") :=
  ⟨by decide,
    diagnostic_shape_invariant.1 noDeleteVarInvalidProgram
      (specDiagnostic { lo := 25, hi := 39 }) (by decide)⟩

end DenoLint
